import Mathlib

/-!
A shallow embedding of the XML parser from `src/lib.rs` (crate `xml-parser-rs`).

Rust `&str` values are modelled as `List Char` (`Str`); every string primitive
the source uses (`split_inclusive`, `split_once`, `split`, `strip_prefix` /
`strip_suffix`, `find`, `starts_with`, `ends_with`) is given an executable
char-level counterpart with the same semantics.  All patterns the source
passes to these primitives are ASCII, and each primitive only ever splits at
char boundaries, so char-level and byte-level behaviour coincide.

Fallible operations (`Option::unwrap`, whose failure aborts the Rust process)
are modelled with `Option`/`Except`: a `none` produced by a translated
`unwrap` becomes `ParseErr.panicked`.  The end-tag reduction loop in `parse`
(`loop { if let Some(section) = section_stack.pop() { ... } }`) has no exit
when the stack is exhausted without finding a matching open frame: in that
state Rust pops `None` forever and the loop never terminates.  That
non-terminating state is modelled by `ParseErr.hang`.

Rust `Vec` push/pop stacks are modelled as Lean lists with the head as the
top of the stack; accumulator vectors (`contents`, `children`, `result`)
keep `Vec` index order, so `Vec::push` becomes `++ [x]`.
`HashMap<&str, Vec<&str>>` is modelled as an association list with
insert-replaces-value semantics (`insertAttr`), which represents the same
key-to-value mapping.
-/

namespace XmlParse

abbrev Str := List Char

/-- Rust `str::split_inclusive('>')`: split after every occurrence of `c`,
keeping the delimiter at the end of each piece; an empty input yields no
pieces, and only the final piece may lack the delimiter. -/
def splitInclusive (c : Char) : Str → List Str
  | [] => []
  | x :: xs =>
    if x = c then [x] :: splitInclusive c xs
    else
      match splitInclusive c xs with
      | [] => [[x]]
      | y :: ys => (x :: y) :: ys

/-- Rust `str::starts_with(p)` on char lists. -/
def isPre : Str → Str → Bool
  | [], _ => true
  | _ :: _, [] => false
  | p :: ps, s :: ss => p == s && isPre ps ss

/-- Rust `str::ends_with(p)` on char lists. -/
def isSuf (p s : Str) : Bool := isPre p.reverse s.reverse

/-- Rust `str::strip_prefix(p)`. -/
def stripPre (p s : Str) : Option Str :=
  if isPre p s then some (s.drop p.length) else none

/-- Rust `str::strip_suffix(p)`. -/
def stripSuf (p s : Str) : Option Str :=
  if isSuf p s then some (s.take (s.length - p.length)) else none

/-- Rust `str::find(c)`: index of the first occurrence of `c`. -/
def findChar (c : Char) : Str → Option Nat
  | [] => none
  | x :: xs => if x = c then some 0 else (findChar c xs).map (· + 1)

/-- Rust `str::split_once(c)` with a one-char pattern. -/
def splitOnce1 (a : Char) : Str → Option (Str × Str)
  | [] => none
  | x :: xs =>
    if x = a then some ([], xs)
    else (splitOnce1 a xs).map (fun p => (x :: p.1, p.2))

/-- Rust `str::split(c)` with a one-char pattern. -/
def split1 (a : Char) : Str → List Str
  | [] => [[]]
  | x :: xs =>
    if x = a then [] :: split1 a xs
    else
      match split1 a xs with
      | [] => [[x]]
      | y :: ys => (x :: y) :: ys

/-- Rust `str::split_once(p)` with a two-char pattern `[a, b]`. -/
def splitOnce2 (a b : Char) : Str → Option (Str × Str)
  | [] => none
  | [_] => none
  | x :: y :: rest =>
    if x = a ∧ y = b then some ([], rest)
    else (splitOnce2 a b (y :: rest)).map (fun p => (x :: p.1, p.2))

/-- Rust `str::split(p)` with a two-char pattern `[a, b]` (non-overlapping,
left to right). -/
def split2 (a b : Char) : Str → List Str
  | [] => [[]]
  | [x] => [[x]]
  | x :: y :: rest =>
    if x = a ∧ y = b then [] :: split2 a b rest
    else
      match split2 a b (y :: rest) with
      | [] => [[x]]
      | z :: zs => (x :: z) :: zs

/-- Rust `section.chars().all(|x| x == '\n' || x == ' ')`. -/
def wsOnly (s : Str) : Bool := s.all fun c => c == '\n' || c == ' '

/-- `HashMap<&str, Vec<&str>>` as an association list. -/
abbrev AttrMap := List (Str × List Str)

/-- `HashMap::insert`: replace the value when the key is present, otherwise
add the binding. -/
def insertAttr : AttrMap → Str → List Str → AttrMap
  | [], k, v => [(k, v)]
  | (k', v') :: rest, k, v =>
    if k' = k then (k, v) :: rest else (k', v') :: insertAttr rest k v

/-- `enum XMLElement<'a>` from the source (positional fields:
name, attributes, contents, children). -/
inductive XMLElement where
  | Element (name : Str) (attributes : AttrMap) (contents : List Str)
      (children : List XMLElement)
  | EmptyElement (name : Str) (attributes : AttrMap)
  | Comment (text : Str)
  | Cdata (text : Str)
deriving Repr

/-- `enum XMLParsingSection<'a>` from the source. -/
inductive XMLParsingSection where
  | ElementStart (name : Str) (attributes : AttrMap)
  | ElementStop (name : Str)
  | FinishedElement (e : XMLElement)
  | EmptyElement (e : XMLElement)
  | Comment (e : XMLElement)
  | Cdata (e : XMLElement)
  | Content (s : Str)
deriving Repr

/-- Outcome of a Rust run that does not return normally:
`panicked` models an `unwrap` failure (process abort), `hang` models the
end-tag reduction loop spinning forever on an exhausted stack. -/
inductive ParseErr where
  | panicked
  | hang
deriving Repr, DecidableEq

/-- The mutable state of `parse`: the `result` vector (index order) and the
`section_stack` (head = top of stack). -/
structure ParseState where
  result : List XMLElement
  stack : List XMLParsingSection
deriving Repr

/-- `fn parse_element_name_and_attributes` (helper for its `for` loop over
attribute pairs).  `none` models the `split_once("=\"").unwrap()` panic. -/
def parseAttrPairs : AttrMap → List Str → Option AttrMap
  | acc, [] => some acc
  | acc, pair :: rest =>
    match splitOnce2 '=' '"' pair with
    | none => none
    | some (name, values) =>
      let values :=
        match stripSuf ['"'] values with
        | some stripped => stripped
        | none => values
      parseAttrPairs (insertAttr acc name (split1 ' ' values)) rest

/-- `fn parse_element_name_and_attributes`. -/
def parse_element_name_and_attributes (raw_xml : Str) :
    Option (Str × AttrMap) :=
  match splitOnce1 ' ' raw_xml with
  | some (name, raw_attributes) =>
    match parseAttrPairs [] (split2 '"' ' ' raw_attributes) with
    | none => none
    | some attributes => some (name, attributes)
  | none => some (raw_xml, [])

/-- `fn parse_version`: each `unwrap` chain step is an explicit match,
`none` modelling the panic. -/
def parse_version (raw_xml : Str) : Option XMLParsingSection :=
  match stripPre ['<', '?'] raw_xml with
  | none => none
  | some s =>
    match stripSuf ['?', '>'] s with
    | none => none
    | some s =>
      match parse_element_name_and_attributes s with
      | none => none
      | some (name, attributes) =>
        some (XMLParsingSection.EmptyElement
          (XMLElement.EmptyElement name attributes))

/-- `fn parse_element_start_tag`. -/
def parse_element_start_tag (raw_xml : Str) : Option XMLParsingSection :=
  match stripPre ['<'] raw_xml with
  | none => none
  | some s =>
    match stripSuf ['>'] s with
    | none => none
    | some s =>
      match parse_element_name_and_attributes s with
      | none => none
      | some (name, attributes) =>
        some (XMLParsingSection.ElementStart name attributes)

/-- `fn parse_element_stop_tag`. -/
def parse_element_stop_tag (raw_xml : Str) : Option XMLParsingSection :=
  match stripPre ['<', '/'] raw_xml with
  | none => none
  | some s =>
    match stripSuf ['>'] s with
    | none => none
    | some s => some (XMLParsingSection.ElementStop s)

/-- `fn parse_empty_element_tag`. -/
def parse_empty_element_tag (raw_xml : Str) : Option XMLParsingSection :=
  match stripPre ['<'] raw_xml with
  | none => none
  | some s =>
    match stripSuf ['/', '>'] s with
    | none => none
    | some s =>
      match parse_element_name_and_attributes s with
      | none => none
      | some (name, attributes) =>
        some (XMLParsingSection.EmptyElement
          (XMLElement.EmptyElement name attributes))

/-- `fn parse_comment`. -/
def parse_comment (raw_xml : Str) : Option XMLParsingSection :=
  match stripPre ['<', '!', '-', '-', ' '] raw_xml with
  | none => none
  | some s =>
    match stripSuf [' ', '-', '-', '>'] s with
    | none => none
    | some s => some (XMLParsingSection.Comment (XMLElement.Comment s))

/-- `fn parse_cdata`. -/
def parse_cdata (raw_xml : Str) : Option XMLParsingSection :=
  match stripPre ['<', '!', '[', 'C', 'D', 'A', 'T', 'A', '['] raw_xml with
  | none => none
  | some s =>
    match stripSuf [']', ']', '>'] s with
    | none => none
    | some s => some (XMLParsingSection.Cdata (XMLElement.Cdata s))

/-- The end-tag reduction loop of `parse` (lines 138-173).  The Rust loop
pops the stack without an exit for the empty-stack case, so `none` here
models the loop running forever.  `contents` and `children` are the two
local accumulator vectors in `Vec` index order; when the matching open
frame is found the completed element is pushed back onto the stack with
`children` reversed (the source reverses only `children`). -/
def reduceEndTag (parent_name : Str) (contents : List Str)
    (children : List XMLElement) :
    List XMLParsingSection → Option (List XMLParsingSection)
  | [] => none
  | sec :: rest =>
    match sec with
    | .ElementStart name attributes =>
      if name = parent_name then
        some (XMLParsingSection.FinishedElement
          (XMLElement.Element name attributes contents children.reverse) :: rest)
      else reduceEndTag parent_name contents children rest
    | .ElementStop _ => reduceEndTag parent_name contents children rest
    | .FinishedElement e => reduceEndTag parent_name contents (children ++ [e]) rest
    | .EmptyElement e => reduceEndTag parent_name contents (children ++ [e]) rest
    | .Comment e => reduceEndTag parent_name contents (children ++ [e]) rest
    | .Cdata e => reduceEndTag parent_name contents (children ++ [e]) rest
    | .Content c => reduceEndTag parent_name (contents ++ [c]) children rest

/-- The `if`/`else if` classification chain of `parse` (lines 125-203), in
source order: `ends_with("/>")`, `starts_with("</")`, `starts_with("<?")`,
`starts_with('<')`, `starts_with("<!--")`, `starts_with("<![CDATA[")`.
The last two arms are kept exactly where the source has them even though
every section reaching them fails their guards. -/
def handleTag (st : ParseState) (sec : Str) : Except ParseErr ParseState :=
  if isSuf ['/', '>'] sec then
    match parse_empty_element_tag sec with
    | none => .error .panicked
    | some ps =>
      if st.stack.isEmpty then
        match ps with
        | .EmptyElement e => .ok { st with result := st.result ++ [e] }
        | _ => .ok st
      else .ok { st with stack := ps :: st.stack }
  else if isPre ['<', '/'] sec then
    match parse_element_stop_tag sec with
    | none => .error .panicked
    | some ps =>
      match ps with
      | .ElementStop parent_name =>
        match reduceEndTag parent_name [] [] st.stack with
        | none => .error .hang
        | some stack' => .ok { st with stack := stack' }
      | _ => .ok st
  else if isPre ['<', '?'] sec then
    match parse_version sec with
    | none => .error .panicked
    | some ps =>
      match ps with
      | .EmptyElement e => .ok { st with result := st.result ++ [e] }
      | _ => .ok st
  else if isPre ['<'] sec then
    match parse_element_start_tag sec with
    | none => .error .panicked
    | some ps => .ok { st with stack := ps :: st.stack }
  else if isPre ['<', '!', '-', '-'] sec then
    match parse_comment sec with
    | none => .error .panicked
    | some ps =>
      if st.stack.isEmpty then
        match ps with
        | .Comment e => .ok { st with result := st.result ++ [e] }
        | _ => .ok st
      else .ok { st with stack := ps :: st.stack }
  else if isPre ['<', '!', '[', 'C', 'D', 'A', 'T', 'A', '['] sec then
    match parse_cdata sec with
    | none => .error .panicked
    | some ps =>
      if st.stack.isEmpty then
        match ps with
        | .Cdata e => .ok { st with result := st.result ++ [e] }
        | _ => .ok st
      else .ok { st with stack := ps :: st.stack }
  else .ok st

/-- One iteration of the `for` loop of `parse` (lines 111-204): first the
leading-content handling for a section that does not start with `<`
(lines 112-124, including the whitespace-only drop), then the
classification chain on the possibly updated section. -/
def step (st : ParseState) (sec : Str) : Except ParseErr ParseState :=
  if isPre ['<'] sec then handleTag st sec
  else
    match findChar '<' sec with
    | some i =>
      let content := sec.take i
      let rest := sec.drop i
      let st' :=
        if wsOnly content then st
        else { st with stack := XMLParsingSection.Content content :: st.stack }
      handleTag st' rest
    | none =>
      let st' :=
        if wsOnly sec then st
        else { st with stack := XMLParsingSection.Content sec :: st.stack }
      handleTag st' sec

/-- The `for` loop of `parse` over all sections. -/
def runSections : ParseState → List Str → Except ParseErr ParseState
  | st, [] => .ok st
  | st, sec :: rest =>
    match step st sec with
    | .error e => .error e
    | .ok st' => runSections st' rest

/-- The final drain of `parse` (lines 205-211): only `FinishedElement`
entries survive. -/
def finishedOnly : XMLParsingSection → Option XMLElement
  | .FinishedElement e => some e
  | _ => none

/-- `fn parse` (lines 108-213): split the input after every `>`, run the
section loop, then drain the stack bottom-to-top appending finished
elements to the result. -/
def parse (raw_xml : Str) : Except ParseErr (List XMLElement) :=
  match runSections ⟨[], []⟩ (splitInclusive '>' raw_xml) with
  | .error e => .error e
  | .ok st => .ok (st.result ++ (st.stack.reverse.filterMap finishedOnly))

/-- Char list of a string literal. -/
def chars (s : String) : Str := s.data

/-- The `contents` field of the first top-level element of a parse result
(used to discriminate parse results without equality on the whole tree). -/
def firstContents : Except ParseErr (List XMLElement) → Option (List Str)
  | .ok (.Element _ _ cs _ :: _) => some cs
  | _ => none

/-- Number of top-level nodes of a successful parse result. -/
def topCount : Except ParseErr (List XMLElement) → Nat
  | .ok l => l.length
  | .error _ => 0

/-- Whether a pending-stack entry is an `ElementStop`. -/
def isStop : XMLParsingSection → Bool
  | .ElementStop _ => true
  | _ => false

mutual
/-- No contents entry of this element, or of any element nested below it,
is a whitespace-only (spaces/newlines) run. -/
def elemOk : XMLElement → Bool
  | .Element _ _ contents children =>
    (contents.all fun c => !wsOnly c) && elemsOk children
  | .EmptyElement _ _ => true
  | .Comment _ => true
  | .Cdata _ => true

/-- `elemOk` over a list of elements. -/
def elemsOk : List XMLElement → Bool
  | [] => true
  | e :: es => elemOk e && elemsOk es
end

/-- The whitespace invariant of one pending-stack entry: pending content is
never whitespace-only, and pending nodes satisfy `elemOk`. -/
def SecOk : XMLParsingSection → Bool
  | .ElementStart _ _ => true
  | .ElementStop _ => true
  | .FinishedElement e => elemOk e
  | .EmptyElement e => elemOk e
  | .Comment e => elemOk e
  | .Cdata e => elemOk e
  | .Content c => !wsOnly c

/-! ## Concrete evaluations settling individual claims -/

/-- Claim C1, as stated, is false at `<a>one<b/>two</a>`: the element's
contents are not `["one", "two"]` (the reduction loop reverses only the
child sequence, never the content sequence). -/
theorem c1_contents_not_in_document_order :
    parse (chars "<a>one<b/>two</a>") ≠
      .ok [.Element ['a'] [] [chars "one", chars "two"]
        [.EmptyElement ['b'] []]] :=
  fun h => absurd (congrArg firstContents h) (by decide)

/-- Claim C1 amended: when an end tag closes its matching open frame, only
the accumulated child sequence is reversed back to document order; the
accumulated content sequence is left in pop (last-in-first-out) order, i.e.
reverse document order.  Parsing `<a>one<b/>two</a>` yields an `a` element
whose contents are `["two", "one"]` and whose children are `[b]`. -/
theorem c1_contents_in_pop_order :
    parse (chars "<a>one<b/>two</a>") =
      .ok [.Element ['a'] [] [chars "two", chars "one"]
        [.EmptyElement ['b'] []]] := rfl

/-- Claim C2: the code, however, never reaches its comment arm — the
`starts_with('<')` arm precedes the `starts_with("<!--")` arm — so
`<!-- note -->` is treated as a start tag and the attribute decomposition
of `!-- note --` panics on `split_once("=\"").unwrap()`.  The whole parse
of `<?xml version="1"?><!-- note --><root/>` therefore aborts instead of
returning the three claimed top-level nodes. -/
theorem c2_comment_input_panics :
    parse (chars "<?xml version=\"1\"?><!-- note --><root/>") =
      .error .panicked := rfl

/-- Claim C3: the code, however, never reaches its CDATA arm — the
`starts_with('<')` arm precedes the `starts_with("<![CDATA[")` arm — so
the section `<![CDATA[<x>` becomes an open start-tag frame named
`![CDATA[<x`, `]]>` becomes stray content, and the final drain discards
both: `<![CDATA[<x>]]>` parses to an empty top-level sequence instead of
`[Cdata("<x>")]`. -/
theorem c3_cdata_input_yields_nothing :
    parse (chars "<![CDATA[<x>]]>") = .ok ([] : List XMLElement) := rfl

/-- Claim C4: the code, however, does not terminate on `</a>`: the end-tag
reduction loop has no exit for an exhausted stack, so once the empty stack
is popped the Rust `loop` spins forever (modelled by `ParseErr.hang`)
instead of completing and returning a result. -/
theorem c4_mismatched_end_tag_hangs :
    parse (chars "</a>") = .error .hang := rfl

/-- Claim C5: decomposing the start-tag body `a k="x y" m="z"` yields the
element name `a` and the attribute mapping `{k: ["x","y"], m: ["z"]}`. -/
theorem c5_attribute_decomposition :
    parse_element_name_and_attributes (chars "a k=\"x y\" m=\"z\"") =
      some (chars "a",
        [(chars "k", [chars "x", chars "y"]), (chars "m", [chars "z"])]) := rfl

/-- Claim C7: on `<a` alone the missing `>` does abort the parse with a
panic, but on `</b><a` the mismatched end tag `</b>` hangs the reduction
loop before the unterminated `<a` is ever reached, so the parse neither
aborts nor returns a result — the claimed "fails fast with an unrecoverable
abort" does not hold for every input with an unterminated tag. -/
theorem c7_unterminated_tag_outcomes :
    parse (chars "<a") = .error .panicked ∧
      parse (chars "</b><a") = .error .hang := ⟨rfl, rfl⟩

/-! ## shape lemmas for the tag-decomposer functions -/

theorem parse_empty_element_tag_shape {s : Str} {ps : XMLParsingSection}
    (h : parse_empty_element_tag s = some ps) :
    ∃ n a, ps = .EmptyElement (.EmptyElement n a) := by
  unfold parse_empty_element_tag at h
  split at h
  · exact absurd h (by simp)
  · split at h
    · exact absurd h (by simp)
    · split at h
      · exact absurd h (by simp)
      · rename_i name attributes _
        injection h with h
        exact ⟨name, attributes, h.symm⟩

theorem parse_version_shape {s : Str} {ps : XMLParsingSection}
    (h : parse_version s = some ps) :
    ∃ n a, ps = .EmptyElement (.EmptyElement n a) := by
  unfold parse_version at h
  split at h
  · exact absurd h (by simp)
  · split at h
    · exact absurd h (by simp)
    · split at h
      · exact absurd h (by simp)
      · rename_i name attributes _
        injection h with h
        exact ⟨name, attributes, h.symm⟩

theorem parse_element_start_tag_shape {s : Str} {ps : XMLParsingSection}
    (h : parse_element_start_tag s = some ps) :
    ∃ n a, ps = .ElementStart n a := by
  unfold parse_element_start_tag at h
  split at h
  · exact absurd h (by simp)
  · split at h
    · exact absurd h (by simp)
    · split at h
      · exact absurd h (by simp)
      · rename_i name attributes _
        injection h with h
        exact ⟨name, attributes, h.symm⟩

theorem parse_element_stop_tag_shape {s : Str} {ps : XMLParsingSection}
    (h : parse_element_stop_tag s = some ps) :
    ∃ n, ps = .ElementStop n := by
  unfold parse_element_stop_tag at h
  split at h
  · exact absurd h (by simp)
  · split at h
    · exact absurd h (by simp)
    · rename_i n _
      injection h with h
      exact ⟨n, h.symm⟩

theorem parse_comment_shape {s : Str} {ps : XMLParsingSection}
    (h : parse_comment s = some ps) :
    ∃ t, ps = .Comment (.Comment t) := by
  unfold parse_comment at h
  split at h
  · exact absurd h (by simp)
  · split at h
    · exact absurd h (by simp)
    · rename_i t _
      injection h with h
      exact ⟨t, h.symm⟩

theorem parse_cdata_shape {s : Str} {ps : XMLParsingSection}
    (h : parse_cdata s = some ps) :
    ∃ t, ps = .Cdata (.Cdata t) := by
  unfold parse_cdata at h
  split at h
  · exact absurd h (by simp)
  · split at h
    · exact absurd h (by simp)
    · rename_i t _
      injection h with h
      exact ⟨t, h.symm⟩

/-! ## stack invariant machinery -/

theorem reduceEndTag_no_stop (pn : Str) :
    ∀ (stk : List XMLParsingSection) (cs : List Str) (ch : List XMLElement)
      (stk' : List XMLParsingSection),
      (∀ x ∈ stk, isStop x = false) →
      reduceEndTag pn cs ch stk = some stk' →
      ∀ x ∈ stk', isStop x = false := by
  intro stk
  induction stk with
  | nil =>
    intro cs ch stk' _ h
    simp [reduceEndTag] at h
  | cons sec rest ih =>
    intro cs ch stk' hstk hred
    have hrest : ∀ x ∈ rest, isStop x = false :=
      fun x hx => hstk x (List.mem_cons_of_mem _ hx)
    cases sec with
    | ElementStart name attributes =>
      by_cases hname : name = pn
      · simp only [reduceEndTag, if_pos hname, Option.some.injEq] at hred
        subst hred
        intro x hx
        rcases List.mem_cons.mp hx with h | h
        · subst h; rfl
        · exact hrest x h
      · simp only [reduceEndTag, if_neg hname] at hred
        exact ih cs ch stk' hrest hred
    | ElementStop n =>
      exact ih cs ch stk' hrest hred
    | FinishedElement e =>
      exact ih cs (ch ++ [e]) stk' hrest hred
    | EmptyElement e =>
      exact ih cs (ch ++ [e]) stk' hrest hred
    | Comment e =>
      exact ih cs (ch ++ [e]) stk' hrest hred
    | Cdata e =>
      exact ih cs (ch ++ [e]) stk' hrest hred
    | Content c =>
      exact ih (cs ++ [c]) ch stk' hrest hred

theorem handleTag_no_stop {st st' : ParseState} {sec : Str}
    (hstk : ∀ x ∈ st.stack, isStop x = false)
    (h : handleTag st sec = .ok st') :
    ∀ x ∈ st'.stack, isStop x = false := by
  unfold handleTag at h
  split at h
  · -- ends_with "/>"
    split at h
    · exact absurd h (by simp)
    · rename_i ps hps
      split at h
      · split at h <;> (injection h with h; subst h; exact hstk)
      · injection h with h
        subst h
        intro x hx
        rcases List.mem_cons.mp hx with hx | hx
        · rcases parse_empty_element_tag_shape hps with ⟨n, a, rfl⟩
          subst hx; rfl
        · exact hstk x hx
  · split at h
    · -- starts_with "</"
      split at h
      · exact absurd h (by simp)
      · rename_i ps hps
        split at h
        · rename_i pn
          split at h
          · exact absurd h (by simp)
          · rename_i stk' hstk'
            injection h with h
            subst h
            exact reduceEndTag_no_stop pn st.stack [] [] stk' hstk hstk'
        · injection h with h; subst h; exact hstk
    · split at h
      · -- starts_with "<?"
        split at h
        · exact absurd h (by simp)
        · split at h
          · injection h with h; subst h; exact hstk
          · injection h with h; subst h; exact hstk
      · split at h
        · -- starts_with '<'
          split at h
          · exact absurd h (by simp)
          · rename_i ps hps
            injection h with h
            subst h
            intro x hx
            rcases List.mem_cons.mp hx with hx | hx
            · rcases parse_element_start_tag_shape hps with ⟨n, a, rfl⟩
              subst hx; rfl
            · exact hstk x hx
        · split at h
          · -- starts_with "<!--"
            split at h
            · exact absurd h (by simp)
            · rename_i ps hps
              split at h
              · split at h <;> (injection h with h; subst h; exact hstk)
              · injection h with h
                subst h
                intro x hx
                rcases List.mem_cons.mp hx with hx | hx
                · rcases parse_comment_shape hps with ⟨t, rfl⟩
                  subst hx; rfl
                · exact hstk x hx
          · split at h
            · -- starts_with "<![CDATA["
              split at h
              · exact absurd h (by simp)
              · rename_i ps hps
                split at h
                · split at h <;> (injection h with h; subst h; exact hstk)
                · injection h with h
                  subst h
                  intro x hx
                  rcases List.mem_cons.mp hx with hx | hx
                  · rcases parse_cdata_shape hps with ⟨t, rfl⟩
                    subst hx; rfl
                  · exact hstk x hx
            · injection h with h; subst h; exact hstk

theorem step_no_stop {st st' : ParseState} {sec : Str}
    (hstk : ∀ x ∈ st.stack, isStop x = false)
    (h : step st sec = .ok st') :
    ∀ x ∈ st'.stack, isStop x = false := by
  unfold step at h
  split at h
  · exact handleTag_no_stop hstk h
  · split at h
    · refine handleTag_no_stop ?_ h
      split
      · exact hstk
      · intro x hx
        rcases List.mem_cons.mp hx with hx | hx
        · subst hx; rfl
        · exact hstk x hx
    · refine handleTag_no_stop ?_ h
      split
      · exact hstk
      · intro x hx
        rcases List.mem_cons.mp hx with hx | hx
        · subst hx; rfl
        · exact hstk x hx

theorem runSections_no_stop :
    ∀ (secs : List Str) (st st' : ParseState),
      (∀ x ∈ st.stack, isStop x = false) →
      runSections st secs = .ok st' →
      ∀ x ∈ st'.stack, isStop x = false := by
  intro secs
  induction secs with
  | nil =>
    intro st st' hstk h
    injection h with h
    subst h
    exact hstk
  | cons sec rest ih =>
    intro st st' hstk h
    unfold runSections at h
    split at h
    · exact absurd h (by simp)
    · rename_i st1 hstep
      exact ih st1 st' (step_no_stop hstk hstep) h

/-! ## whitespace invariant machinery -/

theorem elemsOk_iff {l : List XMLElement} :
    elemsOk l = true ↔ ∀ e ∈ l, elemOk e = true := by
  induction l with
  | nil => simp [elemsOk]
  | cons e es ih => simp [elemsOk, Bool.and_eq_true, ih]

theorem finishedOnly_some {a : XMLParsingSection} {e : XMLElement}
    (h : finishedOnly a = some e) : a = .FinishedElement e := by
  cases a <;> simp_all [finishedOnly]

theorem reduceEndTag_ok (pn : Str) :
    ∀ (stk : List XMLParsingSection) (cs : List Str) (ch : List XMLElement)
      (stk' : List XMLParsingSection),
      (∀ x ∈ stk, SecOk x = true) →
      (∀ c ∈ cs, wsOnly c = false) →
      (∀ e ∈ ch, elemOk e = true) →
      reduceEndTag pn cs ch stk = some stk' →
      ∀ x ∈ stk', SecOk x = true := by
  intro stk
  induction stk with
  | nil =>
    intro cs ch stk' _ _ _ h
    simp [reduceEndTag] at h
  | cons sec rest ih =>
    intro cs ch stk' hstk hcs hch hred
    have hrest : ∀ x ∈ rest, SecOk x = true :=
      fun x hx => hstk x (List.mem_cons_of_mem _ hx)
    have hsec : SecOk sec = true := hstk sec (List.mem_cons_self _ _)
    cases sec with
    | ElementStart name attributes =>
      by_cases hname : name = pn
      · simp only [reduceEndTag, if_pos hname, Option.some.injEq] at hred
        subst hred
        intro x hx
        rcases List.mem_cons.mp hx with h | h
        · subst h
          have h1 : (cs.all fun c => !wsOnly c) = true :=
            List.all_eq_true.mpr fun c hc => by simp [hcs c hc]
          have h2 : elemsOk ch.reverse = true :=
            elemsOk_iff.mpr fun e he => hch e (List.mem_reverse.mp he)
          simp [SecOk, elemOk, h1, h2]
        · exact hrest x h
      · simp only [reduceEndTag, if_neg hname] at hred
        exact ih cs ch stk' hrest hcs hch hred
    | ElementStop n =>
      exact ih cs ch stk' hrest hcs hch hred
    | FinishedElement e =>
      refine ih cs (ch ++ [e]) stk' hrest hcs ?_ hred
      intro d hd
      rcases List.mem_append.mp hd with hd | hd
      · exact hch d hd
      · rw [List.mem_singleton.mp hd]
        simpa [SecOk] using hsec
    | EmptyElement e =>
      refine ih cs (ch ++ [e]) stk' hrest hcs ?_ hred
      intro d hd
      rcases List.mem_append.mp hd with hd | hd
      · exact hch d hd
      · rw [List.mem_singleton.mp hd]
        simpa [SecOk] using hsec
    | Comment e =>
      refine ih cs (ch ++ [e]) stk' hrest hcs ?_ hred
      intro d hd
      rcases List.mem_append.mp hd with hd | hd
      · exact hch d hd
      · rw [List.mem_singleton.mp hd]
        simpa [SecOk] using hsec
    | Cdata e =>
      refine ih cs (ch ++ [e]) stk' hrest hcs ?_ hred
      intro d hd
      rcases List.mem_append.mp hd with hd | hd
      · exact hch d hd
      · rw [List.mem_singleton.mp hd]
        simpa [SecOk] using hsec
    | Content c =>
      refine ih (cs ++ [c]) ch stk' hrest ?_ hch hred
      intro d hd
      rcases List.mem_append.mp hd with hd | hd
      · exact hcs d hd
      · rw [List.mem_singleton.mp hd]
        simpa [SecOk, Bool.not_eq_true'] using hsec

theorem handleTag_ok {st st' : ParseState} {sec : Str}
    (hres : ∀ e ∈ st.result, elemOk e = true)
    (hstk : ∀ x ∈ st.stack, SecOk x = true)
    (h : handleTag st sec = .ok st') :
    (∀ e ∈ st'.result, elemOk e = true) ∧ ∀ x ∈ st'.stack, SecOk x = true := by
  unfold handleTag at h
  split at h
  · split at h
    · exact absurd h (by simp)
    · rename_i ps hps
      rcases parse_empty_element_tag_shape hps with ⟨n, a, rfl⟩
      split at h
      · split at h
        · rename_i e1 heq1
          injection heq1 with heq1
          subst heq1
          injection h with h
          subst h
          refine ⟨?_, hstk⟩
          intro e he
          rcases List.mem_append.mp he with he | he
          · exact hres e he
          · rw [List.mem_singleton.mp he]; rfl
        · rename_i hcontra
          exact absurd rfl (hcontra (XMLElement.EmptyElement n a))
      · injection h with h
        subst h
        refine ⟨hres, ?_⟩
        intro x hx
        rcases List.mem_cons.mp hx with hx | hx
        · subst hx; rfl
        · exact hstk x hx
  · split at h
    · split at h
      · exact absurd h (by simp)
      · rename_i ps hps
        rcases parse_element_stop_tag_shape hps with ⟨n, rfl⟩
        split at h
        · rename_i pn heq
          injection heq with heq
          subst heq
          split at h
          · exact absurd h (by simp)
          · rename_i stk' hred
            injection h with h
            subst h
            exact ⟨hres, reduceEndTag_ok _ st.stack [] [] stk' hstk
              (by simp) (by simp) hred⟩
        · rename_i hcontra
          exact absurd rfl (hcontra n)
    · split at h
      · split at h
        · exact absurd h (by simp)
        · rename_i ps hps
          rcases parse_version_shape hps with ⟨n, a, rfl⟩
          split at h
          · rename_i e1 heq1
            injection heq1 with heq1
            subst heq1
            injection h with h
            subst h
            refine ⟨?_, hstk⟩
            intro e he
            rcases List.mem_append.mp he with he | he
            · exact hres e he
            · rw [List.mem_singleton.mp he]; rfl
          · rename_i hcontra
            exact absurd rfl (hcontra (XMLElement.EmptyElement n a))
      · split at h
        · split at h
          · exact absurd h (by simp)
          · rename_i ps hps
            rcases parse_element_start_tag_shape hps with ⟨n, a, rfl⟩
            injection h with h
            subst h
            refine ⟨hres, ?_⟩
            intro x hx
            rcases List.mem_cons.mp hx with hx | hx
            · subst hx; rfl
            · exact hstk x hx
        · split at h
          · split at h
            · exact absurd h (by simp)
            · rename_i ps hps
              rcases parse_comment_shape hps with ⟨t, rfl⟩
              split at h
              · split at h
                · rename_i e1 heq1
                  injection heq1 with heq1
                  subst heq1
                  injection h with h
                  subst h
                  refine ⟨?_, hstk⟩
                  intro e he
                  rcases List.mem_append.mp he with he | he
                  · exact hres e he
                  · rw [List.mem_singleton.mp he]; rfl
                · rename_i hcontra
                  exact absurd rfl (hcontra (XMLElement.Comment t))
              · injection h with h
                subst h
                refine ⟨hres, ?_⟩
                intro x hx
                rcases List.mem_cons.mp hx with hx | hx
                · subst hx; rfl
                · exact hstk x hx
          · split at h
            · split at h
              · exact absurd h (by simp)
              · rename_i ps hps
                rcases parse_cdata_shape hps with ⟨t, rfl⟩
                split at h
                · split at h
                  · rename_i e1 heq1
                    injection heq1 with heq1
                    subst heq1
                    injection h with h
                    subst h
                    refine ⟨?_, hstk⟩
                    intro e he
                    rcases List.mem_append.mp he with he | he
                    · exact hres e he
                    · rw [List.mem_singleton.mp he]; rfl
                  · rename_i hcontra
                    exact absurd rfl (hcontra (XMLElement.Cdata t))
                · injection h with h
                  subst h
                  refine ⟨hres, ?_⟩
                  intro x hx
                  rcases List.mem_cons.mp hx with hx | hx
                  · subst hx; rfl
                  · exact hstk x hx
            · injection h with h; subst h; exact ⟨hres, hstk⟩

theorem step_ok {st st' : ParseState} {sec : Str}
    (hres : ∀ e ∈ st.result, elemOk e = true)
    (hstk : ∀ x ∈ st.stack, SecOk x = true)
    (h : step st sec = .ok st') :
    (∀ e ∈ st'.result, elemOk e = true) ∧ ∀ x ∈ st'.stack, SecOk x = true := by
  unfold step at h
  split at h
  · exact handleTag_ok hres hstk h
  · split at h
    · refine handleTag_ok ?_ ?_ h
      · split
        · exact hres
        · exact hres
      · split
        · exact hstk
        · rename_i hws
          rw [Bool.not_eq_true] at hws
          intro x hx
          rcases List.mem_cons.mp hx with hx | hx
          · subst hx; simp [SecOk, hws]
          · exact hstk x hx
    · refine handleTag_ok ?_ ?_ h
      · split
        · exact hres
        · exact hres
      · split
        · exact hstk
        · rename_i hws
          rw [Bool.not_eq_true] at hws
          intro x hx
          rcases List.mem_cons.mp hx with hx | hx
          · subst hx; simp [SecOk, hws]
          · exact hstk x hx

theorem runSections_ok :
    ∀ (secs : List Str) (st st' : ParseState),
      (∀ e ∈ st.result, elemOk e = true) →
      (∀ x ∈ st.stack, SecOk x = true) →
      runSections st secs = .ok st' →
      (∀ e ∈ st'.result, elemOk e = true) ∧
        ∀ x ∈ st'.stack, SecOk x = true := by
  intro secs
  induction secs with
  | nil =>
    intro st st' hres hstk h
    injection h with h
    subst h
    exact ⟨hres, hstk⟩
  | cons sec rest ih =>
    intro st st' hres hstk h
    unfold runSections at h
    split at h
    · exact absurd h (by simp)
    · rename_i st1 hstep
      rcases step_ok hres hstk hstep with ⟨h1, h2⟩
      exact ih st1 st' h1 h2 h

/-- Claim C9: a text run consisting solely of spaces and newlines never
appears in any Element's contents anywhere in a successful parse result,
and parsing `<a><b/>\n  <c/></a>` yields one `a` element with children
`[b, c]` in document order and empty contents. -/
theorem c9_whitespace_never_in_contents :
    (∀ (s : Str) (r : List XMLElement), parse s = .ok r → elemsOk r = true) ∧
      parse (chars "<a><b/>\n  <c/></a>") =
        .ok [.Element ['a'] [] []
          [.EmptyElement ['b'] [], .EmptyElement ['c'] []]] := by
  constructor
  · intro s r hp
    unfold parse at hp
    split at hp
    · exact absurd hp (by simp)
    · rename_i st hrun
      injection hp with hp
      rcases runSections_ok (splitInclusive '>' s) ⟨[], []⟩ st
        (by simp) (by simp) hrun with ⟨h1, h2⟩
      refine elemsOk_iff.mpr ?_
      intro e he
      rw [← hp] at he
      rcases List.mem_append.mp he with he | he
      · exact h1 e he
      · rcases List.mem_filterMap.mp he with ⟨a, ha, hfa⟩
        have ha2 := h2 a (List.mem_reverse.mp ha)
        rw [finishedOnly_some hfa] at ha2
        simpa [SecOk] using ha2
  · rfl

/-- Claim C9 witness at the document of the claim. -/
theorem c9_witness :
    elemsOk [XMLElement.Element ['a'] [] []
      [.EmptyElement ['b'] [], .EmptyElement ['c'] []]] = true :=
  c9_whitespace_never_in_contents.1 (chars "<a><b/>\n  <c/></a>") _
    c9_whitespace_never_in_contents.2

/-- Claim C10: after any prefix of the sliced sections of a document has
been processed, the pending-section stack contains no `ElementStop` entry:
end-tag sections are consumed immediately by the reduction loop, so the
`ElementStop` arm of that loop's match is unreachable. -/
theorem c10_stack_never_holds_element_stop (s : Str) (pre suf : List Str)
    (st : ParseState)
    (_hsplit : splitInclusive '>' s = pre ++ suf)
    (hrun : runSections ⟨[], []⟩ pre = .ok st) :
    ∀ x ∈ st.stack, isStop x = false :=
  runSections_no_stop pre ⟨[], []⟩ st (by simp) hrun

/-- Claim C10 witness: in the state reached after the first two sections of
`<a><b/></a>`, the open `a` frame on the stack is not an `ElementStop`. -/
theorem c10_witness : isStop (XMLParsingSection.ElementStart ['a'] []) = false :=
  c10_stack_never_holds_element_stop (chars "<a><b/></a>")
    [chars "<a>", chars "<b/>"] [chars "</a>"]
    (ParseState.mk []
      [XMLParsingSection.EmptyElement (XMLElement.EmptyElement ['b'] []),
       XMLParsingSection.ElementStart ['a'] []])
    (by decide) (by rfl)
    (XMLParsingSection.ElementStart ['a'] [])
    (List.mem_cons_of_mem _ (List.mem_cons_self _ _))

/-- Claim C6, as stated, is false: an XML declaration appearing inside an
open element is appended to the top-level output (giving two top-level
nodes for `<a><?x?></a>`), not made a child of the open element. -/
theorem c6_declaration_not_nested :
    parse (chars "<a><?x?></a>") ≠
      .ok [.Element ['a'] [] [] [.EmptyElement ['x'] []]] :=
  fun h => absurd (congrArg topCount h) (by decide)

/-- Claim C6 amended: a self-closing tag section follows the
empty-stack-vs-push rule (appended to the top-level output when the stack
is empty, pushed as a pending child otherwise), but an XML declaration
section is always appended directly to the top-level output, whatever the
stack holds. -/
theorem c6_empty_element_routing :
    (∀ (st : ParseState) (sec : Str) (e : XMLElement),
      isSuf ['/', '>'] sec = true →
      parse_empty_element_tag sec = some (.EmptyElement e) →
      handleTag st sec = .ok (if st.stack.isEmpty then
          { st with result := st.result ++ [e] }
        else { st with stack := .EmptyElement e :: st.stack })) ∧
    (∀ (st : ParseState) (sec : Str) (e : XMLElement),
      isSuf ['/', '>'] sec = false →
      isPre ['<', '/'] sec = false →
      isPre ['<', '?'] sec = true →
      parse_version sec = some (.EmptyElement e) →
      handleTag st sec = .ok { st with result := st.result ++ [e] }) := by
  constructor
  · intro st sec e h1 hpe
    simp only [handleTag, h1, if_true, hpe]
    by_cases hst : st.stack.isEmpty <;> simp [hst]
  · intro st sec e h1 h2 h3 hv
    simp [handleTag, h1, h2, h3, hv]

/-- Claim C6 witness: a self-closing tag on an empty stack goes to the
output; a declaration processed while `a` is open still goes to the
output. -/
theorem c6_witness :
    handleTag (ParseState.mk [] []) (chars "<b/>") =
        .ok (ParseState.mk [XMLElement.EmptyElement ['b'] []] []) ∧
      handleTag (ParseState.mk [] [XMLParsingSection.ElementStart ['a'] []])
          (chars "<?x?>") =
        .ok (ParseState.mk [XMLElement.EmptyElement ['x'] []]
          [XMLParsingSection.ElementStart ['a'] []]) :=
  ⟨c6_empty_element_routing.1 (ParseState.mk [] []) (chars "<b/>")
      (XMLElement.EmptyElement ['b'] []) (by decide) (by rfl),
    c6_empty_element_routing.2
      (ParseState.mk [] [XMLParsingSection.ElementStart ['a'] []])
      (chars "<?x?>") (XMLElement.EmptyElement ['x'] []) (by decide)
      (by decide) (by decide) (by rfl)⟩

/-! ## symbolic lemmas about the string primitives (for claim C8) -/

theorem splitInclusive_cut {xs : Str} (rest : Str) (h : '>' ∉ xs) :
    splitInclusive '>' (xs ++ '>' :: rest) =
      (xs ++ ['>']) :: splitInclusive '>' rest := by
  induction xs with
  | nil => simp [splitInclusive]
  | cons x xs ih =>
    have hx : x ≠ '>' := fun hc => h (hc ▸ List.mem_cons_self x xs)
    have h2 : '>' ∉ xs := fun hc => h (List.mem_cons_of_mem x hc)
    simp only [List.cons_append, splitInclusive, if_neg hx]
    rw [show xs.append ('>' :: rest) = xs ++ '>' :: rest from rfl, ih h2]

theorem isPre_append_self (p s : Str) : isPre p (p ++ s) = true := by
  induction p with
  | nil => rfl
  | cons x xs ih => simp [isPre, ih]

theorem stripPre_of_append (p s : Str) : stripPre p (p ++ s) = some s := by
  simp [stripPre, isPre_append_self, List.drop_left]

theorem isSuf_append_self (p s : Str) : isSuf p (s ++ p) = true := by
  simp [isSuf, List.reverse_append, isPre_append_self]

theorem stripSuf_of_append (p s : Str) : stripSuf p (s ++ p) = some s := by
  have hl : (s ++ p).length - p.length = s.length := by
    simp [List.length_append]
  simp [stripSuf, isSuf_append_self, hl, List.take_left]

theorem splitOnce1_of_not_mem {a : Char} {s : Str} (h : ∀ c ∈ s, c ≠ a) :
    splitOnce1 a s = none := by
  induction s with
  | nil => rfl
  | cons x xs ih =>
    have hx : x ≠ a := h x (List.mem_cons_self x xs)
    have h2 : ∀ c ∈ xs, c ≠ a := fun c hc => h c (List.mem_cons_of_mem x hc)
    simp [splitOnce1, hx, ih h2]

theorem name_attrs_of_no_space {n : Str} (h : ∀ c ∈ n, c ≠ ' ') :
    parse_element_name_and_attributes n = some (n, []) := by
  simp [parse_element_name_and_attributes, splitOnce1_of_not_mem h]

theorem findChar_of_append {a : Char} {t : Str} (r : Str)
    (h : ∀ c ∈ t, c ≠ a) : findChar a (t ++ a :: r) = some t.length := by
  induction t with
  | nil => simp [findChar]
  | cons x xs ih =>
    have hx : x ≠ a := h x (List.mem_cons_self x xs)
    have h2 : ∀ c ∈ xs, c ≠ a := fun c hc => h c (List.mem_cons_of_mem x hc)
    simp [findChar, hx, ih h2]

theorem isPre_single_of_head {c : Char} {t : Str} (rest : Str)
    (ht : t ≠ []) (h : ∀ x ∈ t, x ≠ c) : isPre [c] (t ++ rest) = false := by
  cases t with
  | nil => exact absurd rfl ht
  | cons x xs =>
    have hx : x ≠ c := h x (List.mem_cons_self x xs)
    simp [isPre, beq_iff_eq]
    exact fun hc => hx hc.symm

theorem isPre_slash_of_reverse {l : Str} (rest : Str) (hl : l ≠ [])
    (h : ∀ c ∈ l, c ≠ '/') : isPre ['/'] (l.reverse ++ rest) = false := by
  refine isPre_single_of_head rest ?_ ?_
  · simpa using hl
  · intro x hx
    exact h x (List.mem_reverse.mp hx)

theorem isSuf_start_tag {n : Str} (hn0 : n ≠ []) (h : ∀ c ∈ n, c ≠ '/') :
    isSuf ['/', '>'] ('<' :: (n ++ ['>'])) = false := by
  have hrev : ('<' :: (n ++ ['>'])).reverse = '>' :: (n.reverse ++ ['<']) := by
    simp [List.reverse_cons, List.reverse_append]
  simp only [isSuf, hrev, List.reverse_cons, List.reverse_nil, List.nil_append,
    isPre, beq_self_eq_true, Bool.true_and]
  exact isPre_slash_of_reverse ['<'] hn0 h

theorem isSuf_stop_tag {n : Str} (hn0 : n ≠ []) (h : ∀ c ∈ n, c ≠ '/') :
    isSuf ['/', '>'] ('<' :: '/' :: (n ++ ['>'])) = false := by
  have hrev : ('<' :: '/' :: (n ++ ['>'])).reverse =
      '>' :: (n.reverse ++ ['/', '<']) := by
    simp [List.reverse_cons, List.reverse_append]
  simp only [isSuf, hrev, List.reverse_cons, List.reverse_nil, List.nil_append,
    isPre, beq_self_eq_true, Bool.true_and]
  exact isPre_slash_of_reverse ['/', '<'] hn0 h

theorem wsOnly_ne_nil {t : Str} (h : wsOnly t = false) : t ≠ [] := by
  intro hc
  subst hc
  exact absurd h (by simp [wsOnly])

/-- Claim C8: every well-formed single-element document `<name>text</name>`
(a name free of markup/space characters, a non-whitespace-only text run
free of `<` and `>`) parses to exactly one top-level `Element` with that
name, no attributes, contents `[text]` and no children. -/
theorem c8_single_element_document (n t : Str)
    (hn0 : n ≠ [])
    (hn : ∀ c ∈ n, c ≠ '<' ∧ c ≠ '>' ∧ c ≠ '/' ∧ c ≠ '?' ∧ c ≠ ' ')
    (ht : ∀ c ∈ t, c ≠ '<' ∧ c ≠ '>')
    (hws : wsOnly t = false) :
    parse (['<'] ++ n ++ ['>'] ++ t ++ ['<', '/'] ++ n ++ ['>']) =
      .ok [.Element n [] [t] []] := by
  have hnGT : '>' ∉ n := fun hc => (hn _ hc).2.1 rfl
  have hnSl : ∀ c ∈ n, c ≠ '/' := fun c hc => (hn c hc).2.2.1
  have hnQ : ∀ c ∈ n, c ≠ '?' := fun c hc => (hn c hc).2.2.2.1
  have hnSp : ∀ c ∈ n, c ≠ ' ' := fun c hc => (hn c hc).2.2.2.2
  have htLT : ∀ c ∈ t, c ≠ '<' := fun c hc => (ht c hc).1
  have htGT : '>' ∉ t := fun hc => (ht _ hc).2 rfl
  have ht0 : t ≠ [] := wsOnly_ne_nil hws
  -- the slicer cuts the document into the start-tag section and the
  -- text-plus-end-tag section
  have h1 : '>' ∉ ('<' :: n : Str) := by
    intro hc
    rcases List.mem_cons.mp hc with hc | hc
    · exact absurd hc (by decide)
    · exact hnGT hc
  have h2 : '>' ∉ t ++ '<' :: '/' :: n := by
    intro hc
    rcases List.mem_append.mp hc with hc | hc
    · exact htGT hc
    · rcases List.mem_cons.mp hc with hc | hc
      · exact absurd hc (by decide)
      · rcases List.mem_cons.mp hc with hc | hc
        · exact absurd hc (by decide)
        · exact hnGT hc
  have hsecs : splitInclusive '>'
      (['<'] ++ n ++ ['>'] ++ t ++ ['<', '/'] ++ n ++ ['>']) =
      ['<' :: (n ++ ['>']), t ++ ('<' :: '/' :: (n ++ ['>']))] := by
    have hshape : (['<'] ++ n ++ ['>'] ++ t ++ ['<', '/'] ++ n ++ ['>'] : Str) =
        ('<' :: n) ++ '>' :: (t ++ '<' :: '/' :: n ++ ['>']) := by
      simp [List.append_assoc]
    have hshape2 : (t ++ '<' :: '/' :: n ++ ['>'] : Str) =
        (t ++ '<' :: '/' :: n) ++ '>' :: [] := by
      simp [List.append_assoc]
    rw [hshape, splitInclusive_cut _ h1, hshape2, splitInclusive_cut _ h2]
    simp [splitInclusive, List.append_assoc]
  -- processing the start-tag section
  have hpre1 : isPre ['<'] ('<' :: (n ++ ['>'])) = true := by simp [isPre]
  have hA : isSuf ['/', '>'] ('<' :: (n ++ ['>'])) = false :=
    isSuf_start_tag hn0 hnSl
  have hB : isPre ['<', '/'] ('<' :: (n ++ ['>'])) = false := by
    simp only [isPre, beq_self_eq_true, Bool.true_and]
    exact isPre_single_of_head ['>'] hn0 hnSl
  have hC : isPre ['<', '?'] ('<' :: (n ++ ['>'])) = false := by
    simp only [isPre, beq_self_eq_true, Bool.true_and]
    exact isPre_single_of_head ['>'] hn0 hnQ
  have hstart : parse_element_start_tag ('<' :: (n ++ ['>'])) =
      some (.ElementStart n []) := by
    have e1 : stripPre ['<'] ('<' :: (n ++ ['>'])) = some (n ++ ['>']) :=
      stripPre_of_append ['<'] (n ++ ['>'])
    have e2 : stripSuf ['>'] (n ++ ['>']) = some n := stripSuf_of_append ['>'] n
    simp [parse_element_start_tag, e1, e2, name_attrs_of_no_space hnSp]
  have hstep1 : step ⟨[], []⟩ ('<' :: (n ++ ['>'])) =
      .ok ⟨[], [.ElementStart n []]⟩ := by
    simp [step, hpre1, handleTag, hA, hB, hC, hstart]
  -- processing the text-plus-end-tag section
  have hpre2 : isPre ['<'] (t ++ ('<' :: '/' :: (n ++ ['>']))) = false :=
    isPre_single_of_head _ ht0 htLT
  have hfind : findChar '<' (t ++ ('<' :: '/' :: (n ++ ['>']))) =
      some t.length := findChar_of_append _ htLT
  have htake : (t ++ ('<' :: '/' :: (n ++ ['>']))).take t.length = t :=
    List.take_left t _
  have hdrop : (t ++ ('<' :: '/' :: (n ++ ['>']))).drop t.length =
      '<' :: '/' :: (n ++ ['>']) := List.drop_left t _
  have hA2 : isSuf ['/', '>'] ('<' :: '/' :: (n ++ ['>'])) = false :=
    isSuf_stop_tag hn0 hnSl
  have hB2 : isPre ['<', '/'] ('<' :: '/' :: (n ++ ['>'])) = true := by
    simp [isPre]
  have hstop : parse_element_stop_tag ('<' :: '/' :: (n ++ ['>'])) =
      some (.ElementStop n) := by
    have e1 : stripPre ['<', '/'] ('<' :: '/' :: (n ++ ['>'])) =
        some (n ++ ['>']) := stripPre_of_append ['<', '/'] (n ++ ['>'])
    have e2 : stripSuf ['>'] (n ++ ['>']) = some n := stripSuf_of_append ['>'] n
    simp [parse_element_stop_tag, e1, e2]
  have hred : reduceEndTag n [] []
      [.Content t, .ElementStart n []] =
      some [.FinishedElement (.Element n [] [t] [])] := by
    simp [reduceEndTag]
  have hstep2 : step ⟨[], [.ElementStart n []]⟩
      (t ++ ('<' :: '/' :: (n ++ ['>']))) =
      .ok ⟨[], [.FinishedElement (.Element n [] [t] [])]⟩ := by
    simp [step, hpre2, hfind, htake, hdrop, hws, handleTag, hA2, hB2, hstop,
      hred]
  -- assembling the whole parse
  have hrun : runSections ⟨[], []⟩
      ['<' :: (n ++ ['>']), t ++ ('<' :: '/' :: (n ++ ['>']))] =
      .ok ⟨[], [.FinishedElement (.Element n [] [t] [])]⟩ := by
    simp [runSections, hstep1, hstep2]
  unfold parse
  rw [hsecs, hrun]
  simp [finishedOnly]

/-- Claim C8 witness at `<a>text</a>`. -/
theorem c8_witness :
    parse (chars "<a>text</a>") =
      .ok [.Element ['a'] [] [chars "text"] []] :=
  c8_single_element_document ['a'] (chars "text") (by decide) (by decide)
    (by decide) (by decide)

end XmlParse
